import Mathlib

/-!
Verification development for the HOLA 4x4 sudoku core (src/script.js).

The core operations (`isValid`, `solve`, `countSolutions`, `generateFullBoard`,
`generatePuzzle`) are shallowly embedded: the mutable JS board becomes an
explicit `Board` value threaded through the recursion, the unbounded JS
recursion becomes fuel-indexed recursion (with fuel always chosen large enough
to be irrelevant), and the `Math.random` based shuffles become explicit
candidate-order / position-order parameters that the theorems quantify over.
-/

namespace Hola

set_option maxRecDepth 8000

/-- Board side length, `SIZE = 4` in the source. -/
def SIZE : Nat := 4

/-- Block side length, `BLOCK_SIZE = 2` in the source. -/
def BLOCK_SIZE : Nat := 2

/-- The four symbols of the alphabet, `LETTERS = ['H','O','L','A']`. -/
inductive Letter : Type where
  | H : Letter
  | O : Letter
  | L : Letter
  | A : Letter
  deriving DecidableEq, Fintype

/-- A cell holds either the empty sentinel `''` (here `none`) or a letter. -/
abbrev Cell := Option Letter

/-- A board is a list of rows of cells, mirroring the JS array of arrays. -/
abbrev Board := List (List Cell)

/-- The candidate alphabet in source order. -/
def LETTERS : List Letter := [Letter.H, Letter.O, Letter.L, Letter.A]

/-- Read `board[r][c]`; out-of-range reads give the empty sentinel. -/
def getCell (b : Board) (r c : Nat) : Cell :=
  (b.getD r []).getD c none

/-- Write `board[r][c] = v`; out-of-range writes are no-ops. -/
def setCell (b : Board) (r c : Nat) (v : Cell) : Board :=
  b.set r ((b.getD r []).set c v)

/-- Translation of `SudokuCore.isValid`: row scan, column scan, block scan,
each rejecting when `v` occurs at a cell other than `(row, col)`. -/
def isValid (b : Board) (row col : Nat) (v : Cell) : Bool :=
  ((List.range SIZE).all fun c =>
    !(decide (getCell b row c = v) && decide (c ≠ col))) &&
  ((List.range SIZE).all fun r =>
    !(decide (getCell b r col = v) && decide (r ≠ row))) &&
  (let startRow := row / BLOCK_SIZE * BLOCK_SIZE
   let startCol := col / BLOCK_SIZE * BLOCK_SIZE
   (List.range BLOCK_SIZE).all fun r =>
     (List.range BLOCK_SIZE).all fun c =>
       !(decide (getCell b (startRow + r) (startCol + c) = v) &&
         decide (¬(startRow + r = row ∧ startCol + c = col))))

/-- All sixteen cell positions in the row-major order both JS double loops use. -/
def allPositions : List (Nat × Nat) :=
  (List.range SIZE).flatMap fun r => (List.range SIZE).map fun c => (r, c)

/-- Number of empty cells of a board (used as the fuel bound of the searches). -/
def numEmpty (b : Board) : Nat :=
  (allPositions.filter fun p => decide (getCell b p.1 p.2 = none)).length

/-- Number of filled (clue) cells of a board. -/
def clueCount (b : Board) : Nat :=
  (allPositions.filter fun p => decide (getCell b p.1 p.2 ≠ none)).length

/-- The row-major scan for the first empty cell performed at the top of
`solve` and of `countSolutions`'s inner `solveInternal`. -/
def firstEmpty (b : Board) : Option (Nat × Nat) :=
  allPositions.find? fun p => decide (getCell b p.1 p.2 = none)

/-- Candidate loop of `solve`: try each candidate in order, place it if
`isValid` accepts, recurse via `next`, and on failure undo the placement
(`board[row][col] = EMPTY`) before moving on. -/
def solveTry (next : Board → Nat → Bool × Board × Nat) (r c : Nat) :
    List Letter → Board → Nat → Bool × Board × Nat
  | [], b, j => (false, b, j)
  | v :: rest, b, j =>
    if isValid b r c (some v) then
      match next (setCell b r c (some v)) j with
      | (true, b2, j2) => (true, b2, j2)
      | (false, b2, j2) => solveTry next r c rest (setCell b2 r c none) j2
    else solveTry next r c rest b j

/-- Translation of `SudokuCore.solve`. The candidate order consumed at the
`j`-th visited cell is `g j` (the source uses `LETTERS`, Fisher-Yates
shuffled when `randomized` is true). The fuel argument only bounds the
recursion depth; it is always instantiated above the number of empty cells. -/
def solveAux (g : Nat → List Letter) : Nat → Board → Nat → Bool × Board × Nat
  | 0, b, j => (false, b, j)
  | fuel + 1, b, j =>
    match firstEmpty b with
    | none => (true, b, j)
    | some (r, c) => solveTry (solveAux g fuel) r c (g j) b (j + 1)

/-- Top-level `solve(board, randomized)`: returns the success flag and the
board as left by the call (mutated in place in the source). -/
def solve (b : Board) (g : Nat → List Letter) : Bool × Board :=
  let res := solveAux g (numEmpty b + 1) b 0
  (res.1, res.2.1)

/-- Candidate order used when `randomized = false`: the unshuffled alphabet. -/
def plainOrder : Nat → List Letter := fun _ => LETTERS

/-- Candidate loop of `solveInternal` inside `countSolutions`: place each
accepted candidate, recurse, undo, then early-exit as soon as the counter
exceeds 1. -/
def countTry (next : Board → Nat → Nat × Board) (r c : Nat) :
    List Letter → Board → Nat → Nat × Board
  | [], b, cnt => (cnt, b)
  | v :: rest, b, cnt =>
    if isValid b r c (some v) then
      let res := next (setCell b r c (some v)) cnt
      let b2 := setCell res.2 r c none
      if res.1 > 1 then (res.1, b2) else countTry next r c rest b2 res.1
    else countTry next r c rest b cnt

/-- Translation of `solveInternal`: exhaustive enumeration that increments the
counter at every completed board, threaded as explicit state. -/
def countAux : Nat → Board → Nat → Nat × Board
  | 0, b, cnt => (cnt, b)
  | fuel + 1, b, cnt =>
    match firstEmpty b with
    | none => (cnt + 1, b)
    | some (r, c) => countTry (countAux fuel) r c LETTERS b cnt

/-- The `JSON.parse(JSON.stringify(board))` deep copy: a structural copy. -/
def deepCopy (b : Board) : Board :=
  b.map fun row => row.map fun cell => cell

/-- Translation of `SudokuCore.countSolutions`: run the enumeration on a deep
copy of the board starting from counter 0. -/
def countSolutions (b : Board) : Nat :=
  (countAux (numEmpty b + 1) (deepCopy b) 0).1

/-- The all-empty starting board of `generateFullBoard`. -/
def emptyBoard : Board :=
  List.replicate SIZE (List.replicate SIZE none)

/-- The grid `[[H,O,L,A],[L,A,H,O],[O,H,A,L],[A,L,O,H]]` (the spec's §8 example),
which is what the deterministic solve of the empty board produces. -/
def holaBoard : Board :=
  [[some Letter.H, some Letter.O, some Letter.L, some Letter.A],
   [some Letter.L, some Letter.A, some Letter.H, some Letter.O],
   [some Letter.O, some Letter.H, some Letter.A, some Letter.L],
   [some Letter.A, some Letter.L, some Letter.O, some Letter.H]]

/-- Translation of `SudokuCore.generateFullBoard`: solve the empty board with
randomized candidate order `g` and return the board (the flag is ignored,
exactly as in the source). -/
def generateFullBoard (g : Nat → List Letter) : Board :=
  (solve emptyBoard g).2

/-- Translation of the hole-digging loop of `generatePuzzle`: visit positions
in order while removals remain; blank the cell, keep the blank when
`countSolutions` reports exactly one solution, otherwise restore the backup. -/
def digLoop : List (Nat × Nat) → Board → Nat → Board × Nat
  | [], puzzle, k => (puzzle, k)
  | p :: rest, puzzle, k =>
    if k = 0 then (puzzle, k)
    else
      let backup := getCell puzzle p.1 p.2
      let dug := setCell puzzle p.1 p.2 none
      if countSolutions dug = 1 then digLoop rest dug (k - 1)
      else digLoop rest (setCell dug p.1 p.2 backup) k

/-- Translation of `SudokuCore.generatePuzzle`. `g` supplies the candidate
orders of the randomized full-board solve, `t` the drawn clue target
(`Math.floor(Math.random()*(maxClues-minClues+1)) + minClues`), and `ps` the
shuffled visiting order of the sixteen positions. -/
def generatePuzzle (g : Nat → List Letter) (t : Nat) (ps : List (Nat × Nat)) :
    Board × Board :=
  let solution := generateFullBoard g
  let puzzle := deepCopy solution
  let result := digLoop ps puzzle (SIZE * SIZE - t)
  (result.1, solution)

/-! Semantic notions used to state the claims: well-formedness, the
row/column/block constraint, completions, and cell enumeration helpers. -/

/-- A board with the dimensions the spec's data model requires: `SIZE` rows of
`SIZE` cells each. -/
def wellFormed (b : Board) : Prop :=
  b.length = SIZE ∧ ∀ row ∈ b, row.length = SIZE

instance (b : Board) : Decidable (wellFormed b) := by
  unfold wellFormed; infer_instance

/-- Every in-range cell of the board is filled. -/
def isFull (b : Board) : Prop :=
  ∀ r < SIZE, ∀ c < SIZE, getCell b r c ≠ none

instance (b : Board) : Decidable (isFull b) := by
  unfold isFull; infer_instance

/-- Two positions share a row, a column, or a `BLOCK_SIZE × BLOCK_SIZE` block. -/
def sameUnit (r c r2 c2 : Nat) : Prop :=
  r = r2 ∨ c = c2 ∨ (r / BLOCK_SIZE = r2 / BLOCK_SIZE ∧ c / BLOCK_SIZE = c2 / BLOCK_SIZE)

instance (r c r2 c2 : Nat) : Decidable (sameUnit r c r2 c2) := by
  unfold sameUnit; infer_instance

/-- The filled cells of the board satisfy the row/column/block uniqueness
constraint: no letter occurs at two distinct positions of a common unit. -/
def goodBoard (b : Board) : Prop :=
  ∀ r < SIZE, ∀ c < SIZE, ∀ r2 < SIZE, ∀ c2 < SIZE,
    (r, c) ≠ (r2, c2) → sameUnit r c r2 c2 →
      ∀ l : Letter, getCell b r c = some l → getCell b r2 c2 ≠ some l

set_option synthInstance.maxSize 4000 in
instance (b : Board) : Decidable (goodBoard b) := by
  unfold goodBoard; infer_instance

/-- A fully filled grid, as a function assigning a letter to each position. -/
abbrev FullBoard := Fin SIZE → Fin SIZE → Letter

/-- The full-grid constraint for a fully filled grid. -/
def goodFull (f : FullBoard) : Prop :=
  ∀ r c r2 c2 : Fin SIZE, (r, c) ≠ (r2, c2) → sameUnit r.val c.val r2.val c2.val →
    f r c ≠ f r2 c2

instance (f : FullBoard) : Decidable (goodFull f) := by
  unfold goodFull; infer_instance

/-- The filled cells of `b` agree with the fully filled grid `f`. -/
def compat (b : Board) (f : FullBoard) : Prop :=
  ∀ (r c : Fin SIZE) (l : Letter), getCell b r.val c.val = some l → f r c = l

instance (b : Board) (f : FullBoard) : Decidable (compat b f) := by
  unfold compat; infer_instance

/-- The grid `f` is a completion of the board `b`: it agrees with every filled
cell of `b` and satisfies the full row/column/block constraint. -/
def isCompletionF (b : Board) (f : FullBoard) : Prop :=
  compat b f ∧ goodFull f

instance (b : Board) (f : FullBoard) : Decidable (isCompletionF b f) := by
  unfold isCompletionF; infer_instance

/-- Number of distinct completions of a board. -/
def numCompletions (b : Board) : Nat :=
  (Finset.univ.filter fun f : FullBoard => isCompletionF b f).card

/-- Board `b2` agrees with `b` at every filled in-range cell of `b`. -/
def extendsOn (b b2 : Board) : Prop :=
  ∀ r c, r < SIZE → c < SIZE → getCell b r c ≠ none →
    getCell b2 r c = getCell b r c

/-- View a (fully filled) board as a `FullBoard` function. -/
def asFull (b : Board) : FullBoard :=
  fun r c => (getCell b r.val c.val).getD Letter.H

/-- The cells of row `r` in scan order. -/
def rowCells (b : Board) (r : Nat) : List Cell :=
  (List.range SIZE).map fun c => getCell b r c

/-- The cells of column `c` in scan order. -/
def colCells (b : Board) (c : Nat) : List Cell :=
  (List.range SIZE).map fun r => getCell b r c

/-- The cells of the block with block coordinates `(br, bc)`. -/
def blockCells (b : Board) (br bc : Nat) : List Cell :=
  (List.range BLOCK_SIZE).flatMap fun r =>
    (List.range BLOCK_SIZE).map fun c =>
      getCell b (br * BLOCK_SIZE + r) (bc * BLOCK_SIZE + c)

/-! Basic lemmas about cell reads and writes. -/

theorem setCell_of_length_le {b : Board} {r : Nat} (h : b.length ≤ r) (c : Nat) (v : Cell) :
    setCell b r c v = b :=
  List.set_eq_of_length_le h

theorem set_getD {α : Type} (l : List α) (i : Nat) (d : α) :
    l.set i (l.getD i d) = l := by
  by_cases h : i < l.length
  · apply List.ext_getElem?
    intro j
    rw [List.getElem?_set']
    by_cases hij : i = j
    · subst hij
      simp [List.getD_eq_getElem?_getD, List.getElem?_eq_getElem h]
    · simp [hij]
  · exact List.set_eq_of_length_le (Nat.le_of_not_lt h)

theorem setCell_getCell (b : Board) (r c : Nat) :
    setCell b r c (getCell b r c) = b := by
  show b.set r ((b.getD r []).set c ((b.getD r []).getD c none)) = b
  rw [set_getD, set_getD]

theorem setCell_setCell (b : Board) (r c : Nat) (v1 v2 : Cell) :
    setCell (setCell b r c v1) r c v2 = setCell b r c v2 := by
  by_cases h : r < b.length
  · unfold setCell
    simp only [List.getD_eq_getElem?_getD]
    rw [List.getElem?_set_self h]
    simp [List.set_set]
  · have h1 : setCell b r c v1 = b := setCell_of_length_le (Nat.le_of_not_lt h) _ _
    rw [h1]

theorem setCell_restore (b : Board) (r c : Nat) :
    setCell (setCell b r c none) r c (getCell b r c) = b := by
  rw [setCell_setCell, setCell_getCell]

theorem getCell_setCell_self {b : Board} {r c : Nat} (v : Cell)
    (hr : r < b.length) (hc : c < (b.getD r []).length) :
    getCell (setCell b r c v) r c = v := by
  unfold getCell setCell
  simp only [List.getD_eq_getElem?_getD] at hc ⊢
  rw [List.getElem?_set_self hr]
  simp only [Option.getD_some]
  rw [List.getElem?_set_self hc]
  rfl

theorem getCell_setCell_ne {b : Board} {r c r2 c2 : Nat} (v : Cell)
    (h : ¬(r = r2 ∧ c = c2)) :
    getCell (setCell b r c v) r2 c2 = getCell b r2 c2 := by
  unfold getCell setCell
  by_cases hr : r = r2
  · subst hr
    have hc : c ≠ c2 := fun hcc => h ⟨rfl, hcc⟩
    by_cases hlen : r < b.length
    · rw [List.getD_eq_getElem?_getD (l := b.set r _), List.getElem?_set_self hlen]
      show ((b.getD r []).set c v).getD c2 none = (b.getD r []).getD c2 none
      rw [List.getD_eq_getElem?_getD, List.getElem?_set_ne hc,
        ← List.getD_eq_getElem?_getD]
    · rw [List.set_eq_of_length_le (Nat.le_of_not_lt hlen)]
  · rw [List.getD_eq_getElem?_getD (l := b.set r _), List.getElem?_set_ne hr,
      ← List.getD_eq_getElem?_getD]

theorem length_setCell (b : Board) (r c : Nat) (v : Cell) :
    (setCell b r c v).length = b.length :=
  List.length_set ..

theorem getD_row_length {b : Board} (h : wellFormed b) {r : Nat} (hr : r < SIZE) :
    (b.getD r []).length = SIZE := by
  have hrl : r < b.length := by rw [h.1]; exact hr
  rw [List.getD_eq_getElem?_getD, List.getElem?_eq_getElem hrl]
  exact h.2 _ (List.getElem_mem hrl)

theorem wellFormed_setCell {b : Board} (h : wellFormed b) (r c : Nat) (v : Cell) :
    wellFormed (setCell b r c v) := by
  by_cases hr : r < b.length
  · refine ⟨by rw [length_setCell]; exact h.1, ?_⟩
    intro row hrow
    rcases List.mem_or_eq_of_mem_set hrow with hmem | heq
    · exact h.2 row hmem
    · subst heq
      rw [List.length_set]
      exact getD_row_length h (by rw [← h.1]; exact hr)
  · rw [setCell_of_length_le (Nat.le_of_not_lt hr)]
    exact h

theorem getCell_setCell_self' {b : Board} (h : wellFormed b) {r c : Nat}
    (hr : r < SIZE) (hc : c < SIZE) (v : Cell) :
    getCell (setCell b r c v) r c = v :=
  getCell_setCell_self v (by rw [h.1]; exact hr) (by rw [getD_row_length h hr]; exact hc)

/-! Lemmas about the position enumeration and the cell counters. -/

theorem mem_allPositions {p : Nat × Nat} :
    p ∈ allPositions ↔ p.1 < SIZE ∧ p.2 < SIZE := by
  cases p with
  | mk r c =>
    simp [allPositions, List.mem_flatMap, List.mem_map, List.mem_range]

theorem nodup_allPositions : allPositions.Nodup := by decide

theorem countP_congr_local {α : Type} {l : List α} {p q : α → Bool}
    (h : ∀ y ∈ l, p y = q y) : l.countP p = l.countP q := by
  induction l with
  | nil => rfl
  | cons a t ih =>
    rw [List.countP_cons, List.countP_cons, h a (List.mem_cons_self a t),
      ih fun y hy => h y (List.mem_cons_of_mem a hy)]

theorem countP_update_one {α : Type} [DecidableEq α] {p q : α → Bool} {x : α}
    (hpx : p x = true) (hqx : q x = false) :
    ∀ l : List α, x ∈ l → l.Nodup → (∀ y ∈ l, y ≠ x → p y = q y) →
      l.countP p = l.countP q + 1 := by
  intro l
  induction l with
  | nil => intro hmem _ _; cases hmem
  | cons a t ih =>
    intro hmem hnd hagree
    by_cases hax : a = x
    · subst hax
      have hxnott : a ∉ t := (List.nodup_cons.mp hnd).1
      have hcongr : t.countP p = t.countP q :=
        countP_congr_local fun y hy =>
          hagree y (List.mem_cons_of_mem _ hy) fun hh => hxnott (hh ▸ hy)
      rw [List.countP_cons, List.countP_cons, hpx, hqx, hcongr]
      simp
    · have hxt : x ∈ t := by
        rcases List.mem_cons.mp hmem with h1 | h1
        · exact absurd h1.symm hax
        · exact h1
      have hpa : p a = q a := hagree a (List.mem_cons_self _ _) hax
      rw [List.countP_cons, List.countP_cons, hpa,
        ih hxt (List.nodup_cons.mp hnd).2
          fun y hy hne => hagree y (List.mem_cons_of_mem _ hy) hne]
      cases hqa : q a <;> simp [hqa]

theorem numEmpty_succ_of_fill {b : Board} (h : wellFormed b) {r c : Nat}
    (hr : r < SIZE) (hc : c < SIZE) (hempty : getCell b r c = none) (l : Letter) :
    numEmpty b = numEmpty (setCell b r c (some l)) + 1 := by
  unfold numEmpty
  rw [← List.countP_eq_length_filter, ← List.countP_eq_length_filter]
  refine countP_update_one (x := (r, c)) (by simp [hempty])
    (by simp [getCell_setCell_self' h hr hc]) _
    (mem_allPositions.mpr ⟨hr, hc⟩) nodup_allPositions ?_
  intro y hy hne
  have hcell : getCell (setCell b r c (some l)) y.1 y.2 = getCell b y.1 y.2 := by
    refine getCell_setCell_ne _ fun hh => hne ?_
    cases y
    simp_all
  simp [hcell]

theorem clueCount_succ_of_dig {b : Board} (h : wellFormed b) {r c : Nat}
    (hr : r < SIZE) (hc : c < SIZE) (hfill : getCell b r c ≠ none) :
    clueCount b = clueCount (setCell b r c none) + 1 := by
  unfold clueCount
  rw [← List.countP_eq_length_filter, ← List.countP_eq_length_filter]
  refine countP_update_one (x := (r, c)) (by simp [hfill])
    (by simp [getCell_setCell_self' h hr hc]) _
    (mem_allPositions.mpr ⟨hr, hc⟩) nodup_allPositions ?_
  intro y hy hne
  have hcell : getCell (setCell b r c none) y.1 y.2 = getCell b y.1 y.2 := by
    refine getCell_setCell_ne _ fun hh => hne ?_
    cases y
    simp_all
  simp [hcell]

theorem clueCount_le (b : Board) : clueCount b ≤ SIZE * SIZE := by
  have hlen : allPositions.length = SIZE * SIZE := by decide
  calc clueCount b ≤ allPositions.length := List.length_filter_le _ _
    _ = SIZE * SIZE := hlen

theorem clueCount_of_isFull {b : Board} (h : isFull b) :
    clueCount b = SIZE * SIZE := by
  unfold clueCount
  have hall : ∀ p ∈ allPositions, decide (getCell b p.1 p.2 ≠ none) = true := by
    intro p hp
    rcases mem_allPositions.mp hp with ⟨h1, h2⟩
    simpa using h p.1 h1 p.2 h2
  rw [List.filter_eq_self.mpr hall]
  decide

/-! Lemmas about the first-empty-cell scan. -/

theorem isFull_of_firstEmpty_none {b : Board} (h : firstEmpty b = none) : isFull b := by
  intro r hr c hc
  have := List.find?_eq_none.mp h (r, c) (mem_allPositions.mpr ⟨hr, hc⟩)
  simpa using this

theorem firstEmpty_spec {b : Board} {r c : Nat} (h : firstEmpty b = some (r, c)) :
    r < SIZE ∧ c < SIZE ∧ getCell b r c = none := by
  have hmem := List.mem_of_find?_eq_some h
  have hpred := List.find?_some h
  rw [mem_allPositions] at hmem
  simp only [decide_eq_true_eq] at hpred
  exact ⟨hmem.1, hmem.2, hpred⟩

/-! Characterization of the constraint checker. -/

theorem sameUnit_symm {r c r2 c2 : Nat} (h : sameUnit r c r2 c2) :
    sameUnit r2 c2 r c := by
  unfold sameUnit at *
  rcases h with h | h | ⟨h1, h2⟩
  · exact Or.inl h.symm
  · exact Or.inr (Or.inl h.symm)
  · exact Or.inr (Or.inr ⟨h1.symm, h2.symm⟩)

theorem isValid_iff {b : Board} {row col : Nat}
    (hrow : row < SIZE) (hcol : col < SIZE) (v : Cell) :
    isValid b row col v = true ↔
      ∀ r2 c2, r2 < SIZE → c2 < SIZE → (r2, c2) ≠ (row, col) →
        sameUnit row col r2 c2 → getCell b r2 c2 ≠ v := by
  simp only [SIZE, BLOCK_SIZE] at hrow hcol ⊢
  simp only [isValid, sameUnit, SIZE, BLOCK_SIZE, Bool.and_eq_true, List.all_eq_true,
    List.mem_range, Bool.not_eq_true', Bool.and_eq_false_iff, decide_eq_false_iff_not,
    not_not]
  constructor
  · rintro ⟨⟨hrowScan, hcolScan⟩, hblockScan⟩ r2 c2 h2 h4 hne hunit heq
    rcases hunit with h | h | ⟨hb1, hb2⟩
    · subst h
      have hcne : c2 ≠ col := by
        intro hcc
        exact hne (by rw [hcc])
      rcases hrowScan c2 h4 with h5 | h5
      · exact h5 heq
      · exact hcne h5
    · subst h
      have hrne : r2 ≠ row := by
        intro hrr
        exact hne (by rw [hrr])
      rcases hcolScan r2 h2 with h5 | h5
      · exact h5 heq
      · exact hrne h5
    · have hr2b : r2 - row / 2 * 2 < 2 := by omega
      have hc2b : c2 - col / 2 * 2 < 2 := by omega
      have e1 : row / 2 * 2 + (r2 - row / 2 * 2) = r2 := by omega
      have e2 : col / 2 * 2 + (c2 - col / 2 * 2) = c2 := by omega
      rcases hblockScan (r2 - row / 2 * 2) hr2b (c2 - col / 2 * 2) hc2b with h5 | h5
      · rw [e1, e2] at h5
        exact h5 heq
      · rw [e1, e2] at h5
        exact hne (by rw [h5.1, h5.2])
  · intro h
    refine ⟨⟨?_, ?_⟩, ?_⟩
    · intro c hc
      by_cases hcc : c = col
      · exact Or.inr hcc
      · left
        intro heq
        refine h row c hrow hc ?_ (Or.inl rfl) heq
        intro hpair
        exact hcc (by injection hpair)
    · intro r hr
      by_cases hrr : r = row
      · exact Or.inr hrr
      · left
        intro heq
        refine h r col hr hcol ?_ (Or.inr (Or.inl rfl)) heq
        intro hpair
        exact hrr (by injection hpair)
    · intro r hr c hc
      by_cases hsame : row / 2 * 2 + r = row ∧ col / 2 * 2 + c = col
      · exact Or.inr hsame
      · left
        intro heq
        refine h (row / 2 * 2 + r) (col / 2 * 2 + c) (by omega) (by omega) ?_ ?_ heq
        · intro hpair
          injection hpair with i1 i2
          exact hsame ⟨i1, i2⟩
        · right; right
          constructor <;> omega

/-! Preservation of the board invariants. -/

theorem getD_of_lt {α : Type} (l : List α) {i : Nat} (h : i < l.length) (d : α) :
    l.getD i d = l[i] := by
  rw [List.getD_eq_getElem?_getD, List.getElem?_eq_getElem h]
  rfl

theorem setCell_none_of_empty {b : Board} {r c : Nat} (h : getCell b r c = none) :
    setCell b r c none = b := by
  conv_lhs => rw [← h]
  exact setCell_getCell b r c

theorem getCell_setCell_none (b : Board) (r c : Nat) :
    getCell (setCell b r c none) r c = none := by
  by_cases hr : r < b.length
  · by_cases hc : c < (b.getD r []).length
    · exact getCell_setCell_self none hr hc
    · have hcell : getCell b r c = none := by
        unfold getCell
        rw [List.getD_eq_getElem?_getD (l := b.getD r []),
          List.getElem?_eq_none (Nat.le_of_not_lt hc)]
        rfl
      rw [setCell_none_of_empty hcell]
      exact hcell
  · rw [setCell_of_length_le (Nat.le_of_not_lt hr)]
    unfold getCell
    rw [List.getD_eq_getElem?_getD (l := b), List.getElem?_eq_none (Nat.le_of_not_lt hr)]
    rfl

theorem goodBoard_mono {b b2 : Board}
    (hsub : ∀ r c, r < SIZE → c < SIZE →
      getCell b2 r c = getCell b r c ∨ getCell b2 r c = none)
    (hg : goodBoard b) : goodBoard b2 := by
  intro r hr c hc r2 hr2 c2 hc2 hne hunit l h1 h2
  rcases hsub r c hr hc with e1 | e1
  · rcases hsub r2 c2 hr2 hc2 with e2 | e2
    · rw [e1] at h1
      rw [e2] at h2
      exact hg r hr c hc r2 hr2 c2 hc2 hne hunit l h1 h2
    · rw [e2] at h2
      cases h2
  · rw [e1] at h1
    cases h1

theorem goodBoard_setCell_none {b : Board} (hg : goodBoard b) (r c : Nat) :
    goodBoard (setCell b r c none) := by
  refine goodBoard_mono ?_ hg
  intro r2 c2 _ _
  by_cases h : r = r2 ∧ c = c2
  · rcases h with ⟨rfl, rfl⟩
    exact Or.inr (getCell_setCell_none b r c)
  · exact Or.inl (getCell_setCell_ne none h)

theorem goodBoard_place {b : Board} (hwf : wellFormed b) (hg : goodBoard b)
    {row col : Nat} (hrow : row < SIZE) (hcol : col < SIZE)
    {l : Letter} (hv : isValid b row col (some l) = true) :
    goodBoard (setCell b row col (some l)) := by
  have hchar := (isValid_iff hrow hcol (some l)).mp hv
  intro r hr c hc r2 hr2 c2 hc2 hne hunit l0 h1 h2
  by_cases hA : row = r ∧ col = c
  · rcases hA with ⟨rfl, rfl⟩
    rw [getCell_setCell_self' hwf hrow hcol] at h1
    injection h1 with h1
    subst h1
    have hneB : ¬(row = r2 ∧ col = c2) := by
      rintro ⟨rfl, rfl⟩
      exact hne rfl
    rw [getCell_setCell_ne _ hneB] at h2
    refine hchar r2 c2 hr2 hc2 ?_ hunit h2
    intro hpair
    injection hpair with i1 i2
    exact hneB ⟨i1.symm, i2.symm⟩
  · rw [getCell_setCell_ne _ hA] at h1
    by_cases hB : row = r2 ∧ col = c2
    · rcases hB with ⟨rfl, rfl⟩
      rw [getCell_setCell_self' hwf hrow hcol] at h2
      injection h2 with h2
      subst h2
      refine hchar r c hr hc ?_ (sameUnit_symm hunit) h1
      intro hpair
      injection hpair with i1 i2
      exact hA ⟨i1.symm, i2.symm⟩
    · rw [getCell_setCell_ne _ hB] at h2
      exact hg r hr c hc r2 hr2 c2 hc2 hne hunit l0 h1 h2

/-! Frame property of the solver: a failing call leaves the board unchanged. -/

theorem solveTry_frame {next : Board → Nat → Bool × Board × Nat} {r c : Nat}
    (hframe : ∀ b j, (next b j).1 = false → (next b j).2.1 = b) :
    ∀ (L : List Letter) (b : Board) (j : Nat), getCell b r c = none →
      (solveTry next r c L b j).1 = false → (solveTry next r c L b j).2.1 = b := by
  intro L
  induction L with
  | nil => intro b j _ _; rfl
  | cons v rest ih =>
    intro b j hempty
    simp only [solveTry]
    by_cases hv : isValid b r c (some v) = true
    · rw [if_pos hv]
      rcases hres : next (setCell b r c (some v)) j with ⟨flag, b2, j2⟩
      cases flag
      · have hb2 : b2 = setCell b r c (some v) := by
          have := hframe (setCell b r c (some v)) j
          rw [hres] at this
          exact this rfl
        have hrestore : setCell b2 r c none = b := by
          rw [hb2, setCell_setCell, setCell_none_of_empty hempty]
        simp only [hrestore]
        exact ih b j2 hempty
      · intro hfalse
        cases hfalse
    · rw [if_neg hv]
      exact ih b j hempty

theorem solveAux_frame (g : Nat → List Letter) :
    ∀ (fuel : Nat) (b : Board) (j : Nat),
      (solveAux g fuel b j).1 = false → (solveAux g fuel b j).2.1 = b := by
  intro fuel
  induction fuel with
  | zero => intro b j _; rfl
  | succ fuel ih =>
    intro b j
    simp only [solveAux]
    rcases hfe : firstEmpty b with _ | ⟨r, c⟩
    · intro hfalse
      cases hfalse
    · have hspec := firstEmpty_spec hfe
      exact solveTry_frame (fun b2 j2 => ih b2 j2) (g j) b (j + 1) hspec.2.2

/-! Soundness of the solver: a successful call yields a full constrained board
extending the input. -/

theorem solveTry_sound {next : Board → Nat → Bool × Board × Nat} {r c : Nat}
    (hrow : r < SIZE) (hcol : c < SIZE)
    (hframe : ∀ b j, (next b j).1 = false → (next b j).2.1 = b)
    (hsound : ∀ b j, wellFormed b → goodBoard b → (next b j).1 = true →
      wellFormed (next b j).2.1 ∧ goodBoard (next b j).2.1 ∧ isFull (next b j).2.1 ∧
        extendsOn b (next b j).2.1) :
    ∀ (L : List Letter) (b : Board) (j : Nat), wellFormed b → goodBoard b →
      getCell b r c = none → (solveTry next r c L b j).1 = true →
      wellFormed (solveTry next r c L b j).2.1 ∧
        goodBoard (solveTry next r c L b j).2.1 ∧
        isFull (solveTry next r c L b j).2.1 ∧
        extendsOn b (solveTry next r c L b j).2.1 := by
  intro L
  induction L with
  | nil => intro b j _ _ _ htrue; cases htrue
  | cons v rest ih =>
    intro b j hwf hg hempty
    simp only [solveTry]
    by_cases hv : isValid b r c (some v) = true
    · rw [if_pos hv]
      rcases hres : next (setCell b r c (some v)) j with ⟨flag, b2, j2⟩
      have hwf2 : wellFormed (setCell b r c (some v)) := wellFormed_setCell hwf r c _
      have hg2 : goodBoard (setCell b r c (some v)) := goodBoard_place hwf hg hrow hcol hv
      cases flag
      · have hb2 : b2 = setCell b r c (some v) := by
          have := hframe (setCell b r c (some v)) j
          rw [hres] at this
          exact this rfl
        have hrestore : setCell b2 r c none = b := by
          rw [hb2, setCell_setCell, setCell_none_of_empty hempty]
        simp only [hrestore]
        exact ih b j2 hwf hg hempty
      · intro _
        have hs := hsound (setCell b r c (some v)) j hwf2 hg2 (by rw [hres])
        rw [hres] at hs
        refine ⟨hs.1, hs.2.1, hs.2.2.1, ?_⟩
        intro r0 c0 h0 h1 hfill
        have hne0 : ¬(r = r0 ∧ c = c0) := by
          rintro ⟨rfl, rfl⟩
          exact hfill hempty
        have e0 : getCell (setCell b r c (some v)) r0 c0 = getCell b r0 c0 :=
          getCell_setCell_ne _ hne0
        have := hs.2.2.2 r0 c0 h0 h1 (by rw [e0]; exact hfill)
        rw [e0] at this
        exact this
    · rw [if_neg hv]
      exact ih b j hwf hg hempty

theorem solveAux_sound (g : Nat → List Letter) :
    ∀ (fuel : Nat) (b : Board) (j : Nat), wellFormed b → goodBoard b →
      (solveAux g fuel b j).1 = true →
      wellFormed (solveAux g fuel b j).2.1 ∧ goodBoard (solveAux g fuel b j).2.1 ∧
        isFull (solveAux g fuel b j).2.1 ∧ extendsOn b (solveAux g fuel b j).2.1 := by
  intro fuel
  induction fuel with
  | zero => intro b j _ _ htrue; cases htrue
  | succ fuel ih =>
    intro b j hwf hg
    simp only [solveAux]
    rcases hfe : firstEmpty b with _ | ⟨r, c⟩
    · intro _
      refine ⟨hwf, hg, isFull_of_firstEmpty_none hfe, ?_⟩
      intro r0 c0 _ _ _
      rfl
    · have hspec := firstEmpty_spec hfe
      exact solveTry_sound hspec.1 hspec.2.1 (fun b2 j2 => solveAux_frame g fuel b2 j2)
        (fun b2 j2 => ih b2 j2) (g j) b (j + 1) hwf hg hspec.2.2

/-! Completions and their interaction with placements. -/

theorem compat_setCell {b : Board} (hwf : wellFormed b) {row col : Nat}
    (hrow : row < SIZE) (hcol : col < SIZE) (hempty : getCell b row col = none)
    (v : Letter) (f : FullBoard) :
    compat (setCell b row col (some v)) f ↔
      compat b f ∧ f ⟨row, hrow⟩ ⟨col, hcol⟩ = v := by
  constructor
  · intro hc
    refine ⟨?_, ?_⟩
    · intro r c l hcell
      apply hc r c l
      have hne : ¬(row = r.val ∧ col = c.val) := by
        rintro ⟨h1, h2⟩
        rw [← h1, ← h2, hempty] at hcell
        cases hcell
      rw [getCell_setCell_ne _ hne]
      exact hcell
    · apply hc ⟨row, hrow⟩ ⟨col, hcol⟩ v
      exact getCell_setCell_self' hwf hrow hcol _
  · rintro ⟨hc, hval⟩ r c l hcell
    by_cases h : row = r.val ∧ col = c.val
    · have hfr : (⟨row, hrow⟩ : Fin SIZE) = r := Fin.ext h.1
      have hfc : (⟨col, hcol⟩ : Fin SIZE) = c := Fin.ext h.2
      have hsome : some v = some l := by
        have e : getCell (setCell b row col (some v)) r.val c.val = some v := by
          rw [← h.1, ← h.2]
          exact getCell_setCell_self' hwf hrow hcol _
        rw [e] at hcell
        exact hcell
      injection hsome with hh
      rw [← hfr, ← hfc, hval, hh]
    · rw [getCell_setCell_ne _ h] at hcell
      exact hc r c l hcell

/-! Completeness of the solver: when a completion exists and every candidate
list offers the whole alphabet, the search succeeds. -/

theorem solveTry_complete {next : Board → Nat → Bool × Board × Nat} {r c : Nat}
    (hframe : ∀ b j, (next b j).1 = false → (next b j).2.1 = b) :
    ∀ (L : List Letter) (b : Board) (j : Nat) (v : Letter), v ∈ L →
      getCell b r c = none → isValid b r c (some v) = true →
      (∀ j2, (next (setCell b r c (some v)) j2).1 = true) →
      (solveTry next r c L b j).1 = true := by
  intro L
  induction L with
  | nil => intro b j v hmem; cases hmem
  | cons w rest ih =>
    intro b j v hmem hempty hval htrue
    simp only [solveTry]
    by_cases hw : isValid b r c (some w) = true
    · rw [if_pos hw]
      rcases hres : next (setCell b r c (some w)) j with ⟨flag, b2, j2⟩
      cases flag
      · have hwv : w ≠ v := by
          rintro rfl
          have := htrue j
          rw [hres] at this
          cases this
        have hb2 : b2 = setCell b r c (some w) := by
          have := hframe (setCell b r c (some w)) j
          rw [hres] at this
          exact this rfl
        have hrestore : setCell b2 r c none = b := by
          rw [hb2, setCell_setCell, setCell_none_of_empty hempty]
        simp only [hrestore]
        have hmem2 : v ∈ rest := by
          rcases List.mem_cons.mp hmem with h1 | h1
          · exact absurd h1.symm hwv
          · exact h1
        exact ih b j2 v hmem2 hempty hval htrue
      · rfl
    · rw [if_neg hw]
      have hmem2 : v ∈ rest := by
        rcases List.mem_cons.mp hmem with h1 | h1
        · subst h1
          exact absurd hval hw
        · exact h1
      exact ih b j v hmem2 hempty hval htrue

theorem solveAux_complete (g : Nat → List Letter) (hgall : ∀ j l, l ∈ g j) :
    ∀ (fuel : Nat) (b : Board) (j : Nat), wellFormed b → goodBoard b →
      numEmpty b < fuel → (∃ f, isCompletionF b f) →
      (solveAux g fuel b j).1 = true := by
  intro fuel
  induction fuel with
  | zero => intro b j _ _ hfuel _; omega
  | succ fuel ih =>
    intro b j hwf hgood hfuel hex
    simp only [solveAux]
    rcases hfe : firstEmpty b with _ | ⟨r, c⟩
    · rfl
    · rcases firstEmpty_spec hfe with ⟨hr, hc, hempty⟩
      rcases hex with ⟨f, hf⟩
      have hcompat2 : compat (setCell b r c (some (f ⟨r, hr⟩ ⟨c, hc⟩))) f :=
        (compat_setCell hwf hr hc hempty _ f).mpr ⟨hf.1, rfl⟩
      have hval : isValid b r c (some (f ⟨r, hr⟩ ⟨c, hc⟩)) = true := by
        by_contra hnv
        have hnp : ¬ (∀ r2 c2, r2 < SIZE → c2 < SIZE → (r2, c2) ≠ (r, c) →
            sameUnit r c r2 c2 → getCell b r2 c2 ≠ some (f ⟨r, hr⟩ ⟨c, hc⟩)) := by
          intro hp
          exact hnv ((isValid_iff hr hc _).mpr hp)
        push_neg at hnp
        rcases hnp with ⟨r2, c2, h2, h4, hne, hunit, heq⟩
        have hf2 : f ⟨r2, h2⟩ ⟨c2, h4⟩ = f ⟨r, hr⟩ ⟨c, hc⟩ :=
          hf.1 ⟨r2, h2⟩ ⟨c2, h4⟩ _ heq
        have hfinne : ((⟨r, hr⟩ : Fin SIZE), (⟨c, hc⟩ : Fin SIZE)) ≠
            ((⟨r2, h2⟩ : Fin SIZE), (⟨c2, h4⟩ : Fin SIZE)) := by
          intro hp
          injection hp with hp1 hp2
          have e1 : r = r2 := congrArg Fin.val hp1
          have e2 : c = c2 := congrArg Fin.val hp2
          exact hne (by rw [e1, e2])
        exact hf.2 ⟨r, hr⟩ ⟨c, hc⟩ ⟨r2, h2⟩ ⟨c2, h4⟩ hfinne hunit hf2.symm
      have hnum : numEmpty b = numEmpty (setCell b r c (some (f ⟨r, hr⟩ ⟨c, hc⟩))) + 1 :=
        numEmpty_succ_of_fill hwf hr hc hempty _
      have hwf2 := wellFormed_setCell hwf r c (some (f ⟨r, hr⟩ ⟨c, hc⟩))
      have hg2 := goodBoard_place hwf hgood hr hc hval
      refine solveTry_complete (fun b2 j2 => solveAux_frame g fuel b2 j2) (g j) b (j + 1)
        (f ⟨r, hr⟩ ⟨c, hc⟩) (hgall j _) hempty hval ?_
      intro j2
      exact ih (setCell b r c (some (f ⟨r, hr⟩ ⟨c, hc⟩))) j2 hwf2 hg2 (by omega)
        ⟨f, hcompat2, hf.2⟩

/-! Full boards and their unique completions. -/

theorem board_ext {b1 b2 : Board} (h1 : wellFormed b1) (h2 : wellFormed b2)
    (h : ∀ r c, r < SIZE → c < SIZE → getCell b1 r c = getCell b2 r c) :
    b1 = b2 := by
  apply List.ext_getElem?
  intro r
  by_cases hr : r < SIZE
  · have hr1 : r < b1.length := by rw [h1.1]; exact hr
    have hr2 : r < b2.length := by rw [h2.1]; exact hr
    rw [List.getElem?_eq_getElem hr1, List.getElem?_eq_getElem hr2]
    congr 1
    apply List.ext_getElem?
    intro c
    by_cases hc : c < SIZE
    · have hlen1 : (b1[r]).length = SIZE := h1.2 _ (List.getElem_mem hr1)
      have hlen2 : (b2[r]).length = SIZE := h2.2 _ (List.getElem_mem hr2)
      have hc1 : c < (b1[r]).length := by rw [hlen1]; exact hc
      have hc2 : c < (b2[r]).length := by rw [hlen2]; exact hc
      rw [List.getElem?_eq_getElem hc1, List.getElem?_eq_getElem hc2]
      have e := h r c hr hc
      unfold getCell at e
      rw [getD_of_lt b1 hr1, getD_of_lt b2 hr2, getD_of_lt _ hc1, getD_of_lt _ hc2] at e
      rw [e]
    · have hlen1 : (b1[r]).length = SIZE := h1.2 _ (List.getElem_mem hr1)
      have hlen2 : (b2[r]).length = SIZE := h2.2 _ (List.getElem_mem hr2)
      rw [List.getElem?_eq_none (by rw [hlen1]; exact Nat.le_of_not_lt hc),
        List.getElem?_eq_none (by rw [hlen2]; exact Nat.le_of_not_lt hc)]
  · rw [List.getElem?_eq_none (by rw [h1.1]; exact Nat.le_of_not_lt hr),
      List.getElem?_eq_none (by rw [h2.1]; exact Nat.le_of_not_lt hr)]

theorem compat_asFull {b : Board} : compat b (asFull b) := by
  intro r c l hcell
  unfold asFull
  rw [hcell]
  rfl

theorem compat_full_unique {b : Board} (hfull : isFull b) {f : FullBoard}
    (hcomp : compat b f) : f = asFull b := by
  funext r c
  cases hcell : getCell b r.val c.val with
  | none => exact absurd hcell (hfull r.val r.isLt c.val c.isLt)
  | some l =>
    rw [hcomp r c l hcell]
    unfold asFull
    rw [hcell]
    rfl

theorem goodFull_asFull {b : Board} (hg : goodBoard b) (hfull : isFull b) :
    goodFull (asFull b) := by
  intro r c r2 c2 hne hunit heq
  have h1 := hfull r.val r.isLt c.val c.isLt
  have h2 := hfull r2.val r2.isLt c2.val c2.isLt
  cases e1 : getCell b r.val c.val with
  | none => exact h1 e1
  | some l1 =>
    cases e2 : getCell b r2.val c2.val with
    | none => exact h2 e2
    | some l2 =>
      have hv1 : asFull b r c = l1 := by unfold asFull; rw [e1]; rfl
      have hv2 : asFull b r2 c2 = l2 := by unfold asFull; rw [e2]; rfl
      have hll : l1 = l2 := by rw [← hv1, ← hv2, heq]
      have hnatne : (r.val, c.val) ≠ (r2.val, c2.val) := by
        intro hp
        injection hp with hp1 hp2
        exact hne (by rw [Prod.mk.injEq]; exact ⟨Fin.ext hp1, Fin.ext hp2⟩)
      exact hg r.val r.isLt c.val c.isLt r2.val r2.isLt c2.val c2.isLt
        hnatne hunit l1 e1 (by rw [e2, hll])

theorem eq_of_asFull_eq {b1 b2 : Board} (hwf1 : wellFormed b1) (hwf2 : wellFormed b2)
    (hf1 : isFull b1) (hf2 : isFull b2) (he : asFull b1 = asFull b2) : b1 = b2 := by
  apply board_ext hwf1 hwf2
  intro r c hr hc
  cases e1 : getCell b1 r c with
  | none => exact absurd e1 (hf1 r hr c hc)
  | some l1 =>
    cases e2 : getCell b2 r c with
    | none => exact absurd e2 (hf2 r hr c hc)
    | some l2 =>
      have hv1 : asFull b1 ⟨r, hr⟩ ⟨c, hc⟩ = l1 := by unfold asFull; rw [e1]; rfl
      have hv2 : asFull b2 ⟨r, hr⟩ ⟨c, hc⟩ = l2 := by unfold asFull; rw [e2]; rfl
      rw [← hv1, ← hv2, he]

theorem numCompletions_of_full {b : Board} (hg : goodBoard b)
    (hfull : isFull b) : numCompletions b = 1 := by
  unfold numCompletions
  rw [Finset.card_eq_one]
  refine ⟨asFull b, ?_⟩
  ext f
  simp only [Finset.mem_filter, Finset.mem_univ, true_and, Finset.mem_singleton]
  constructor
  · rintro ⟨hc, _⟩
    exact compat_full_unique hfull hc
  · rintro rfl
    exact ⟨compat_asFull, goodFull_asFull hg hfull⟩

/-! Translating the completion count into existence statements. -/

theorem numCompletions_eq_zero_iff {b : Board} :
    numCompletions b = 0 ↔ ∀ f, ¬ isCompletionF b f := by
  unfold numCompletions
  rw [Finset.card_eq_zero, Finset.filter_eq_empty_iff]
  simp

theorem numCompletions_eq_one_iff {b : Board} :
    numCompletions b = 1 ↔ ∃! f, isCompletionF b f := by
  unfold numCompletions
  rw [Finset.card_eq_one]
  constructor
  · rintro ⟨a, ha⟩
    have hmem : a ∈ Finset.univ.filter fun f : FullBoard => isCompletionF b f := by
      rw [ha]
      exact Finset.mem_singleton_self a
    rw [Finset.mem_filter] at hmem
    refine ⟨a, hmem.2, ?_⟩
    intro f hf
    have : f ∈ Finset.univ.filter fun f : FullBoard => isCompletionF b f :=
      Finset.mem_filter.mpr ⟨Finset.mem_univ f, hf⟩
    rw [ha, Finset.mem_singleton] at this
    exact this
  · rintro ⟨f, hf, huniq⟩
    refine ⟨f, ?_⟩
    ext g
    rw [Finset.mem_filter, Finset.mem_singleton]
    constructor
    · rintro ⟨_, hg⟩
      exact huniq g hg
    · intro h
      exact ⟨Finset.mem_univ g, by rw [h]; exact hf⟩

theorem two_le_numCompletions_iff {b : Board} :
    2 ≤ numCompletions b ↔
      ∃ f1 f2, f1 ≠ f2 ∧ isCompletionF b f1 ∧ isCompletionF b f2 := by
  unfold numCompletions
  rw [show (2 : Nat) ≤ (Finset.univ.filter fun f : FullBoard => isCompletionF b f).card ↔
      1 < (Finset.univ.filter fun f : FullBoard => isCompletionF b f).card from Iff.rfl]
  rw [Finset.one_lt_card]
  constructor
  · rintro ⟨f1, h1, f2, h2, hne⟩
    rw [Finset.mem_filter] at h1 h2
    exact ⟨f1, f2, hne, h1.2, h2.2⟩
  · rintro ⟨f1, f2, hne, h1, h2⟩
    exact ⟨f1, Finset.mem_filter.mpr ⟨Finset.mem_univ _, h1⟩,
      f2, Finset.mem_filter.mpr ⟨Finset.mem_univ _, h2⟩, hne⟩

theorem numCompletions_of_invalid {b : Board} (hwf : wellFormed b) {row col : Nat}
    (hrow : row < SIZE) (hcol : col < SIZE) (hempty : getCell b row col = none)
    {v : Letter} (hnv : isValid b row col (some v) = false) :
    numCompletions (setCell b row col (some v)) = 0 := by
  rw [numCompletions_eq_zero_iff]
  rintro f ⟨hcomp, hgood⟩
  rw [compat_setCell hwf hrow hcol hempty] at hcomp
  have hnp : ¬ (∀ r2 c2, r2 < SIZE → c2 < SIZE → (r2, c2) ≠ (row, col) →
      sameUnit row col r2 c2 → getCell b r2 c2 ≠ some v) := by
    intro hp
    rw [(isValid_iff hrow hcol _).mpr hp] at hnv
    cases hnv
  push_neg at hnp
  rcases hnp with ⟨r2, c2, h2, h4, hne, hunit, heq⟩
  have hf2 : f ⟨r2, h2⟩ ⟨c2, h4⟩ = v := hcomp.1 ⟨r2, h2⟩ ⟨c2, h4⟩ _ heq
  have hfinne : ((⟨row, hrow⟩ : Fin SIZE), (⟨col, hcol⟩ : Fin SIZE)) ≠
      ((⟨r2, h2⟩ : Fin SIZE), (⟨c2, h4⟩ : Fin SIZE)) := by
    intro hp
    injection hp with hp1 hp2
    have e1 : row = r2 := congrArg Fin.val hp1
    have e2 : col = c2 := congrArg Fin.val hp2
    exact hne (by rw [← e1, ← e2])
  exact hgood _ _ _ _ hfinne hunit (by rw [hcomp.2, hf2])

theorem numCompletions_decompose {b : Board} (hwf : wellFormed b) {row col : Nat}
    (hrow : row < SIZE) (hcol : col < SIZE) (hempty : getCell b row col = none) :
    numCompletions b = ∑ v : Letter, numCompletions (setCell b row col (some v)) := by
  unfold numCompletions
  rw [Finset.card_eq_sum_card_fiberwise
    (f := fun f : FullBoard => f ⟨row, hrow⟩ ⟨col, hcol⟩) (t := Finset.univ)
    (fun x _ => Finset.mem_univ _)]
  apply Finset.sum_congr rfl
  intro v _
  congr 1
  rw [Finset.filter_filter]
  apply Finset.filter_congr
  intro f _
  unfold isCompletionF
  rw [compat_setCell hwf hrow hcol hempty]
  tauto

/-! The solution counter: restoration, exact value, and the cap at 2. -/

theorem countTry_restore {next : Board → Nat → Nat × Board} {r c : Nat}
    (hres : ∀ b2 cnt2, (next b2 cnt2).2 = b2) :
    ∀ (L : List Letter) (b : Board) (cnt : Nat), getCell b r c = none →
      (countTry next r c L b cnt).2 = b := by
  intro L
  induction L with
  | nil => intro b cnt _; rfl
  | cons v rest ih =>
    intro b cnt hempty
    simp only [countTry]
    by_cases hv : isValid b r c (some v) = true
    · rw [if_pos hv]
      rcases hnext : next (setCell b r c (some v)) cnt with ⟨cnt2, b2⟩
      dsimp only
      have hb2 : b2 = setCell b r c (some v) := by
        have := hres (setCell b r c (some v)) cnt
        rw [hnext] at this
        exact this
      have hrestore : setCell b2 r c none = b := by
        rw [hb2, setCell_setCell, setCell_none_of_empty hempty]
      rw [hrestore]
      by_cases hcnt : cnt2 > 1
      · rw [if_pos hcnt]
      · rw [if_neg hcnt]
        exact ih b cnt2 hempty
    · rw [if_neg hv]
      exact ih b cnt hempty

theorem countAux_restore :
    ∀ (fuel : Nat) (b : Board) (cnt : Nat), (countAux fuel b cnt).2 = b := by
  intro fuel
  induction fuel with
  | zero => intro b cnt; rfl
  | succ fuel ih =>
    intro b cnt
    simp only [countAux]
    rcases hfe : firstEmpty b with _ | ⟨r, c⟩
    · rfl
    · exact countTry_restore (fun b2 cnt2 => ih b2 cnt2) LETTERS b cnt
        (firstEmpty_spec hfe).2.2

theorem countTry_count {next : Board → Nat → Nat × Board} {r c : Nat}
    {b : Board} (hwf : wellFormed b) (hr : r < SIZE) (hc : c < SIZE)
    (hempty : getCell b r c = none)
    (hres : ∀ b2 cnt2, (next b2 cnt2).2 = b2)
    (hcount : ∀ (v : Letter), isValid b r c (some v) = true → ∀ cnt2, cnt2 ≤ 1 →
      (next (setCell b r c (some v)) cnt2).1 =
        min (cnt2 + numCompletions (setCell b r c (some v))) 2) :
    ∀ (L : List Letter) (cnt : Nat), cnt ≤ 1 →
      (countTry next r c L b cnt).1 =
        min (cnt + (L.map fun v => numCompletions (setCell b r c (some v))).sum) 2 := by
  intro L
  induction L with
  | nil =>
    intro cnt hcnt
    simp only [countTry, List.map_nil, List.sum_nil]
    omega
  | cons v rest ih =>
    intro cnt hcnt
    simp only [countTry]
    by_cases hv : isValid b r c (some v) = true
    · rw [if_pos hv]
      rcases hnext : next (setCell b r c (some v)) cnt with ⟨cnt2, b2⟩
      dsimp only
      have hcnt2 : cnt2 = min (cnt + numCompletions (setCell b r c (some v))) 2 := by
        have := hcount v hv cnt hcnt
        rw [hnext] at this
        exact this
      have hb2 : b2 = setCell b r c (some v) := by
        have := hres (setCell b r c (some v)) cnt
        rw [hnext] at this
        exact this
      have hrestore : setCell b2 r c none = b := by
        rw [hb2, setCell_setCell, setCell_none_of_empty hempty]
      rw [hrestore]
      by_cases hgt : cnt2 > 1
      · rw [if_pos hgt]
        simp only [List.map_cons, List.sum_cons]
        omega
      · rw [if_neg hgt]
        rw [ih cnt2 (by omega)]
        simp only [List.map_cons, List.sum_cons]
        omega
    · rw [if_neg hv]
      have hv2 : isValid b r c (some v) = false := by
        cases h2 : isValid b r c (some v)
        · rfl
        · exact absurd h2 hv
      have hzero : numCompletions (setCell b r c (some v)) = 0 :=
        numCompletions_of_invalid hwf hr hc hempty hv2
      rw [ih cnt hcnt]
      simp only [List.map_cons, List.sum_cons, hzero]
      rw [Nat.zero_add]

theorem sum_LETTERS (f : Letter → Nat) :
    (LETTERS.map f).sum = ∑ v : Letter, f v := by
  have h1 : LETTERS.toFinset = (Finset.univ : Finset Letter) := by decide
  rw [← List.sum_toFinset f (by decide : LETTERS.Nodup), h1]

theorem countAux_count :
    ∀ (fuel : Nat) (b : Board) (cnt : Nat), wellFormed b → goodBoard b →
      numEmpty b < fuel → cnt ≤ 1 →
      (countAux fuel b cnt).1 = min (cnt + numCompletions b) 2 := by
  intro fuel
  induction fuel with
  | zero => intro b cnt _ _ h _; omega
  | succ fuel ih =>
    intro b cnt hwf hgood hfuel hcnt
    simp only [countAux]
    rcases hfe : firstEmpty b with _ | ⟨r, c⟩
    · dsimp only
      rw [numCompletions_of_full hgood (isFull_of_firstEmpty_none hfe)]
      omega
    · rcases firstEmpty_spec hfe with ⟨hr, hc, hempty⟩
      have hloop := countTry_count hwf hr hc hempty
        (fun b2 cnt2 => countAux_restore fuel b2 cnt2)
        (fun v hval cnt2 hcnt2 => ih (setCell b r c (some v)) cnt2
          (wellFormed_setCell hwf r c _) (goodBoard_place hwf hgood hr hc hval)
          (by have := numEmpty_succ_of_fill hwf hr hc hempty v; omega) hcnt2)
        LETTERS cnt hcnt
      rw [hloop, sum_LETTERS, ← numCompletions_decompose hwf hr hc hempty]

theorem deepCopy_eq (b : Board) : deepCopy b = b := by
  unfold deepCopy
  simp

theorem countSolutions_min {b : Board} (hwf : wellFormed b) (hgood : goodBoard b) :
    countSolutions b = min (numCompletions b) 2 := by
  unfold countSolutions
  rw [deepCopy_eq, countAux_count (numEmpty b + 1) b 0 hwf hgood (by omega) (by omega),
    Nat.zero_add]

theorem countTry_le {next : Board → Nat → Nat × Board} {r c : Nat}
    (hnext : ∀ b2 cnt2, cnt2 ≤ 1 → (next b2 cnt2).1 ≤ 2) :
    ∀ (L : List Letter) (b : Board) (cnt : Nat), cnt ≤ 1 →
      (countTry next r c L b cnt).1 ≤ 2 := by
  intro L
  induction L with
  | nil => intro b cnt hcnt; simp only [countTry]; omega
  | cons v rest ih =>
    intro b cnt hcnt
    simp only [countTry]
    by_cases hv : isValid b r c (some v) = true
    · rw [if_pos hv]
      rcases hnext2 : next (setCell b r c (some v)) cnt with ⟨cnt2, b2⟩
      dsimp only
      have hle : cnt2 ≤ 2 := by
        have := hnext (setCell b r c (some v)) cnt hcnt
        rw [hnext2] at this
        exact this
      by_cases hgt : cnt2 > 1
      · rw [if_pos hgt]
        exact hle
      · rw [if_neg hgt]
        exact ih _ cnt2 (by omega)
    · rw [if_neg hv]
      exact ih b cnt hcnt

theorem countAux_le :
    ∀ (fuel : Nat) (b : Board) (cnt : Nat), cnt ≤ 1 → (countAux fuel b cnt).1 ≤ 2 := by
  intro fuel
  induction fuel with
  | zero => intro b cnt hcnt; simp only [countAux]; omega
  | succ fuel ih =>
    intro b cnt hcnt
    simp only [countAux]
    rcases hfe : firstEmpty b with _ | ⟨r, c⟩
    · dsimp only
      omega
    · exact countTry_le (fun b2 cnt2 h2 => ih b2 cnt2 h2) LETTERS b cnt hcnt

/-! The hole-digging loop: its invariants and its clue accounting. -/

theorem digLoop_invariant :
    ∀ (ps : List (Nat × Nat)) (b : Board) (k : Nat),
      wellFormed b → countSolutions b = 1 →
      wellFormed (digLoop ps b k).1 ∧ countSolutions (digLoop ps b k).1 = 1 ∧
        (∀ r c, getCell (digLoop ps b k).1 r c = getCell b r c ∨
          getCell (digLoop ps b k).1 r c = none) := by
  intro ps
  induction ps with
  | nil => intro b k hwf h1; exact ⟨hwf, h1, fun r c => Or.inl rfl⟩
  | cons p rest ih =>
    intro b k hwf h1
    simp only [digLoop]
    by_cases hk : k = 0
    · rw [if_pos hk]
      exact ⟨hwf, h1, fun r c => Or.inl rfl⟩
    · rw [if_neg hk]
      by_cases hcs : countSolutions (setCell b p.1 p.2 none) = 1
      · rw [if_pos hcs]
        have hwf2 : wellFormed (setCell b p.1 p.2 none) := wellFormed_setCell hwf _ _ _
        rcases ih (setCell b p.1 p.2 none) (k - 1) hwf2 hcs with ⟨ha, hb, hc⟩
        refine ⟨ha, hb, ?_⟩
        intro r c
        rcases hc r c with h2 | h2
        · by_cases hp : p.1 = r ∧ p.2 = c
          · right
            rw [h2, ← hp.1, ← hp.2]
            exact getCell_setCell_none b p.1 p.2
          · left
            rw [h2, getCell_setCell_ne _ hp]
        · right
          exact h2
      · rw [if_neg hcs]
        rw [setCell_restore b p.1 p.2]
        exact ih b k hwf h1

theorem digLoop_count :
    ∀ (ps : List (Nat × Nat)) (b : Board) (k : Nat),
      wellFormed b → ps.Nodup →
      (∀ p ∈ ps, p.1 < SIZE ∧ p.2 < SIZE ∧ getCell b p.1 p.2 ≠ none) →
      (digLoop ps b k).2 ≤ k ∧
        clueCount b = clueCount (digLoop ps b k).1 + (k - (digLoop ps b k).2) := by
  intro ps
  induction ps with
  | nil =>
    intro b k _ _ _
    simp only [digLoop]
    exact ⟨Nat.le_refl k, by omega⟩
  | cons p rest ih =>
    intro b k hwf hnd hpos
    simp only [digLoop]
    by_cases hk : k = 0
    · rw [if_pos hk]
      dsimp only
      exact ⟨Nat.le_refl k, by omega⟩
    · rw [if_neg hk]
      rcases hpos p (List.mem_cons_self _ _) with ⟨hp1, hp2, hpfill⟩
      by_cases hcs : countSolutions (setCell b p.1 p.2 none) = 1
      · rw [if_pos hcs]
        have hwf2 : wellFormed (setCell b p.1 p.2 none) := wellFormed_setCell hwf _ _ _
        have hclue : clueCount b = clueCount (setCell b p.1 p.2 none) + 1 :=
          clueCount_succ_of_dig hwf hp1 hp2 hpfill
        have hpos2 : ∀ q ∈ rest, q.1 < SIZE ∧ q.2 < SIZE ∧
            getCell (setCell b p.1 p.2 none) q.1 q.2 ≠ none := by
          intro q hq
          rcases hpos q (List.mem_cons_of_mem _ hq) with ⟨hq1, hq2, hqfill⟩
          have hqnep : ¬(p.1 = q.1 ∧ p.2 = q.2) := by
            rintro ⟨e1, e2⟩
            have : p = q := by
              cases p; cases q
              simp_all
            rw [this] at hnd
            exact (List.nodup_cons.mp hnd).1 hq
          refine ⟨hq1, hq2, ?_⟩
          rw [getCell_setCell_ne _ hqnep]
          exact hqfill
        rcases ih (setCell b p.1 p.2 none) (k - 1) hwf2 (List.nodup_cons.mp hnd).2 hpos2
          with ⟨hrem, hcount⟩
        refine ⟨by omega, by omega⟩
      · rw [if_neg hcs]
        rw [setCell_restore b p.1 p.2]
        have hpos2 : ∀ q ∈ rest, q.1 < SIZE ∧ q.2 < SIZE ∧ getCell b q.1 q.2 ≠ none :=
          fun q hq => hpos q (List.mem_cons_of_mem _ hq)
        exact ih b k hwf (List.nodup_cons.mp hnd).2 hpos2

/-! Facts about solving from the empty board. -/

theorem emptyBoard_wellFormed : wellFormed emptyBoard := by decide

theorem emptyBoard_good : goodBoard emptyBoard := by decide

theorem emptyBoard_has_completion : isCompletionF emptyBoard (asFull holaBoard) := by
  decide

theorem solve_correct {b : Board} (g : Nat → List Letter)
    (hwf : wellFormed b) (hgood : goodBoard b) (hgall : ∀ j l, l ∈ g j) :
    ((solve b g).1 = true ↔ ∃ f, isCompletionF b f) ∧
      ((solve b g).1 = true → wellFormed (solve b g).2 ∧ goodBoard (solve b g).2 ∧
        isFull (solve b g).2 ∧ extendsOn b (solve b g).2) ∧
      ((solve b g).1 = false → (solve b g).2 = b) := by
  refine ⟨⟨?_, ?_⟩, ?_, ?_⟩
  · intro htrue
    have hs := solveAux_sound g (numEmpty b + 1) b 0 hwf hgood htrue
    refine ⟨asFull (solve b g).2, ?_, ?_⟩
    · intro r c l hcell
      have he : getCell (solve b g).2 r.val c.val = getCell b r.val c.val :=
        hs.2.2.2 r.val c.val r.isLt c.isLt (by rw [hcell]; exact Option.some_ne_none l)
      unfold asFull
      rw [he, hcell]
      rfl
    · exact goodFull_asFull hs.2.1 hs.2.2.1
  · intro hex
    exact solveAux_complete g hgall (numEmpty b + 1) b 0 hwf hgood (by omega) hex
  · intro htrue
    exact solveAux_sound g (numEmpty b + 1) b 0 hwf hgood htrue
  · intro hfalse
    exact solveAux_frame g (numEmpty b + 1) b 0 hfalse

theorem generateFullBoard_spec (g : Nat → List Letter) (hgall : ∀ j l, l ∈ g j) :
    (solve emptyBoard g).1 = true ∧ wellFormed (generateFullBoard g) ∧
      goodBoard (generateFullBoard g) ∧ isFull (generateFullBoard g) := by
  have hc := solve_correct (b := emptyBoard) g emptyBoard_wellFormed emptyBoard_good hgall
  have htrue : (solve emptyBoard g).1 = true :=
    hc.1.mpr ⟨asFull holaBoard, emptyBoard_has_completion⟩
  have hs := hc.2.1 htrue
  exact ⟨htrue, hs.1, hs.2.1, hs.2.2.1⟩

/-! Each unit of a full constrained board holds every letter exactly once. -/

theorem count_one_of_nodup_mem {α : Type} [BEq α] [LawfulBEq α] {l : List α} {a : α}
    (hnd : l.Nodup) (hmem : a ∈ l) : l.count a = 1 := by
  induction l with
  | nil => cases hmem
  | cons x t ih =>
    rcases List.nodup_cons.mp hnd with ⟨hxt, hndt⟩
    by_cases hax : x = a
    · subst hax
      have hz : t.count x = 0 := List.count_eq_zero.mpr hxt
      rw [List.count_cons_self, hz]
    · have hmem2 : a ∈ t := by
        rcases List.mem_cons.mp hmem with h | h
        · exact absurd h.symm hax
        · exact h
      rw [List.count_cons_of_ne (fun h => hax h.symm)]
      exact ih hndt hmem2

theorem cells_perm_count {cells : List Cell} (hlen : cells.length = 4)
    (hnodup : cells.Nodup) (hfull : ∀ x ∈ cells, x ≠ none) (l : Letter) :
    cells.count (some l) = 1 := by
  have hsub : cells.toFinset ⊆ (Finset.univ : Finset Cell).erase none := by
    intro x hx
    rw [List.mem_toFinset] at hx
    exact Finset.mem_erase.mpr ⟨hfull x hx, Finset.mem_univ x⟩
  have hcard1 : cells.toFinset.card = 4 := by
    rw [List.toFinset_card_of_nodup hnodup, hlen]
  have hcard2 : ((Finset.univ : Finset Cell).erase none).card = 4 := by decide
  have heq : cells.toFinset = (Finset.univ : Finset Cell).erase none :=
    Finset.eq_of_subset_of_card_le hsub (by rw [hcard1, hcard2])
  have hmem : some l ∈ cells := by
    rw [← List.mem_toFinset, heq]
    exact Finset.mem_erase.mpr ⟨by simp, Finset.mem_univ _⟩
  exact count_one_of_nodup_mem hnodup hmem

theorem rowCells_count {b : Board} (hg : goodBoard b) (hfull : isFull b) {r : Nat}
    (hr : r < SIZE) (l : Letter) : (rowCells b r).count (some l) = 1 := by
  apply cells_perm_count
  · simp [rowCells, SIZE]
  · unfold rowCells
    refine List.Nodup.map_on ?_ (List.nodup_range _)
    intro c1 h1 c2 h2 heq
    rw [List.mem_range] at h1 h2
    by_contra hne
    cases e1 : getCell b r c1 with
    | none => exact hfull r hr c1 h1 e1
    | some l0 =>
      refine hg r hr c1 h1 r hr c2 h2 ?_ (Or.inl rfl) l0 e1 (by rw [← heq, e1])
      intro hp
      injection hp with i1 i2
      exact hne i2
  · intro x hx
    rcases List.mem_map.mp hx with ⟨c, hc, rfl⟩
    rw [List.mem_range] at hc
    exact hfull r hr c hc

theorem colCells_count {b : Board} (hg : goodBoard b) (hfull : isFull b) {c : Nat}
    (hc : c < SIZE) (l : Letter) : (colCells b c).count (some l) = 1 := by
  apply cells_perm_count
  · simp [colCells, SIZE]
  · unfold colCells
    refine List.Nodup.map_on ?_ (List.nodup_range _)
    intro r1 h1 r2 h2 heq
    rw [List.mem_range] at h1 h2
    by_contra hne
    cases e1 : getCell b r1 c with
    | none => exact hfull r1 h1 c hc e1
    | some l0 =>
      refine hg r1 h1 c hc r2 h2 c hc ?_ (Or.inr (Or.inl rfl)) l0 e1 (by rw [← heq, e1])
      intro hp
      injection hp with i1 i2
      exact hne i1
  · intro x hx
    rcases List.mem_map.mp hx with ⟨r, hrr, rfl⟩
    rw [List.mem_range] at hrr
    exact hfull r hrr c hc

theorem blockCells_count {b : Board} (hg : goodBoard b) (hfull : isFull b)
    {br bc : Nat} (hbr : br < 2) (hbc : bc < 2) (l : Letter) :
    (blockCells b br bc).count (some l) = 1 := by
  have hSZ : SIZE = 4 := rfl
  have hBS : BLOCK_SIZE = 2 := rfl
  have hcellne : ∀ r1 c1 r2 c2 : Nat, r1 < 2 → c1 < 2 → r2 < 2 → c2 < 2 →
      ¬(r1 = r2 ∧ c1 = c2) →
      getCell b (br * BLOCK_SIZE + r1) (bc * BLOCK_SIZE + c1) ≠
        getCell b (br * BLOCK_SIZE + r2) (bc * BLOCK_SIZE + c2) := by
    intro r1 c1 r2 c2 h1 h2 h3 h4 hne heq
    rw [hBS] at heq
    have hb1 : br * 2 + r1 < SIZE := by rw [hSZ]; omega
    have hb2 : bc * 2 + c1 < SIZE := by rw [hSZ]; omega
    have hb3 : br * 2 + r2 < SIZE := by rw [hSZ]; omega
    have hb4 : bc * 2 + c2 < SIZE := by rw [hSZ]; omega
    cases e1 : getCell b (br * 2 + r1) (bc * 2 + c1) with
    | none => exact hfull _ hb1 _ hb2 e1
    | some l0 =>
      refine hg _ hb1 _ hb2 _ hb3 _ hb4 ?_ ?_ l0 e1 (by rw [← heq, e1])
      · intro hp
        injection hp with i1 i2
        exact hne ⟨by omega, by omega⟩
      · unfold sameUnit
        rw [hBS]
        right; right
        constructor <;> omega
  have hbl : blockCells b br bc =
      [getCell b (br * BLOCK_SIZE + 0) (bc * BLOCK_SIZE + 0),
       getCell b (br * BLOCK_SIZE + 0) (bc * BLOCK_SIZE + 1),
       getCell b (br * BLOCK_SIZE + 1) (bc * BLOCK_SIZE + 0),
       getCell b (br * BLOCK_SIZE + 1) (bc * BLOCK_SIZE + 1)] := rfl
  rw [hbl]
  have h01 := hcellne 0 0 0 1 (by omega) (by omega) (by omega) (by omega) (by omega)
  have h02 := hcellne 0 0 1 0 (by omega) (by omega) (by omega) (by omega) (by omega)
  have h03 := hcellne 0 0 1 1 (by omega) (by omega) (by omega) (by omega) (by omega)
  have h12 := hcellne 0 1 1 0 (by omega) (by omega) (by omega) (by omega) (by omega)
  have h13 := hcellne 0 1 1 1 (by omega) (by omega) (by omega) (by omega) (by omega)
  have h23 := hcellne 1 0 1 1 (by omega) (by omega) (by omega) (by omega) (by omega)
  apply cells_perm_count
  · rfl
  · refine List.nodup_cons.mpr ⟨?_, List.nodup_cons.mpr ⟨?_,
      List.nodup_cons.mpr ⟨?_, List.nodup_singleton _⟩⟩⟩
    · intro hmem
      rcases List.mem_cons.mp hmem with h | hmem2
      · exact h01 h
      rcases List.mem_cons.mp hmem2 with h | hmem3
      · exact h02 h
      rcases List.mem_cons.mp hmem3 with h | hmem4
      · exact h03 h
      · cases hmem4
    · intro hmem
      rcases List.mem_cons.mp hmem with h | hmem2
      · exact h12 h
      rcases List.mem_cons.mp hmem2 with h | hmem3
      · exact h13 h
      · cases hmem3
    · intro hmem
      rcases List.mem_cons.mp hmem with h | hmem2
      · exact h23 h
      · cases hmem2
  · intro x hx
    simp only [List.mem_cons, List.not_mem_nil, or_false] at hx
    rcases hx with h | h | h | h
    · rw [h, hBS]
      exact hfull _ (by rw [hSZ]; omega) _ (by rw [hSZ]; omega)
    · rw [h, hBS]
      exact hfull _ (by rw [hSZ]; omega) _ (by rw [hSZ]; omega)
    · rw [h, hBS]
      exact hfull _ (by rw [hSZ]; omega) _ (by rw [hSZ]; omega)
    · rw [h, hBS]
      exact hfull _ (by rw [hSZ]; omega) _ (by rw [hSZ]; omega)

/-! Boards with a unique completion: the deterministic solve reproduces it. -/

theorem unique_solve {pz sol : Board} (hpwf : wellFormed pz)
    (hpg : goodBoard pz) (hswf : wellFormed sol) (hsg : goodBoard sol)
    (hsfull : isFull sol)
    (hagree : ∀ r c, getCell pz r c = getCell sol r c ∨ getCell pz r c = none)
    (hcs : countSolutions pz = 1) (g : Nat → List Letter) (hgall : ∀ j l, l ∈ g j) :
    (∃! f, isCompletionF pz f) ∧ isCompletionF pz (asFull sol) ∧
      (solve pz g).1 = true ∧ (solve pz g).2 = sol := by
  have hcompat : compat pz (asFull sol) := by
    intro r c l hcell
    rcases hagree r.val c.val with h | h
    · rw [h] at hcell
      unfold asFull
      rw [hcell]
      rfl
    · rw [h] at hcell
      cases hcell
  have hcomp : isCompletionF pz (asFull sol) := ⟨hcompat, goodFull_asFull hsg hsfull⟩
  have hN : numCompletions pz = 1 := by
    have hmin := countSolutions_min hpwf hpg
    rw [hcs] at hmin
    omega
  have huniq : ∃! f, isCompletionF pz f := numCompletions_eq_one_iff.mp hN
  have hcor := solve_correct g hpwf hpg hgall
  have htrue : (solve pz g).1 = true := hcor.1.mpr ⟨asFull sol, hcomp⟩
  have hs := hcor.2.1 htrue
  have hresComp : isCompletionF pz (asFull (solve pz g).2) := by
    constructor
    · intro r c l hcell
      have he : getCell (solve pz g).2 r.val c.val = getCell pz r.val c.val :=
        hs.2.2.2 r.val c.val r.isLt c.isLt (by rw [hcell]; exact Option.some_ne_none l)
      unfold asFull
      rw [he, hcell]
      rfl
    · exact goodFull_asFull hs.2.1 hs.2.2.1
  rcases huniq with ⟨f0, hf0, huniq0⟩
  have e1 : asFull (solve pz g).2 = f0 := huniq0 _ hresComp
  have e2 : asFull sol = f0 := huniq0 _ hcomp
  have he : asFull (solve pz g).2 = asFull sol := by rw [e1, e2]
  exact ⟨⟨f0, hf0, huniq0⟩, hcomp, htrue,
    eq_of_asFull_eq hs.1 hswf hs.2.2.1 hsfull he⟩

/-! Assembly lemmas for the puzzle generator. -/

theorem generatePuzzle_fst (g : Nat → List Letter) (t : Nat) (ps : List (Nat × Nat)) :
    (generatePuzzle g t ps).1 =
      (digLoop ps (generateFullBoard g) (SIZE * SIZE - t)).1 := by
  unfold generatePuzzle
  dsimp only
  rw [deepCopy_eq]

theorem generatePuzzle_snd (g : Nat → List Letter) (t : Nat) (ps : List (Nat × Nat)) :
    (generatePuzzle g t ps).2 = generateFullBoard g := rfl

theorem generatePuzzle_master (g : Nat → List Letter) (t : Nat)
    (ps : List (Nat × Nat)) (hgall : ∀ j l, l ∈ g j) :
    wellFormed (generatePuzzle g t ps).2 ∧ goodBoard (generatePuzzle g t ps).2 ∧
      isFull (generatePuzzle g t ps).2 ∧ wellFormed (generatePuzzle g t ps).1 ∧
      countSolutions (generatePuzzle g t ps).1 = 1 ∧
      (∀ r c, getCell (generatePuzzle g t ps).1 r c =
          getCell (generatePuzzle g t ps).2 r c ∨
        getCell (generatePuzzle g t ps).1 r c = none) := by
  have hsol := generateFullBoard_spec g hgall
  have hcs1 : countSolutions (generateFullBoard g) = 1 := by
    rw [countSolutions_min hsol.2.1 hsol.2.2.1,
      numCompletions_of_full hsol.2.2.1 hsol.2.2.2]
    decide
  rw [generatePuzzle_fst, generatePuzzle_snd]
  rcases digLoop_invariant ps (generateFullBoard g) (SIZE * SIZE - t) hsol.2.1 hcs1
    with ⟨ha, hb, hc⟩
  exact ⟨hsol.2.1, hsol.2.2.1, hsol.2.2.2, ha, hb, hc⟩

/-! Out-of-range reads of a well-formed board. -/

theorem getCell_col_oob {b : Board} (hwf : wellFormed b) {r c : Nat}
    (hc : SIZE ≤ c) : getCell b r c = none := by
  have hlen : (b.getD r []).length ≤ c := by
    by_cases hr : r < b.length
    · rw [getD_of_lt b hr, hwf.2 _ (List.getElem_mem hr)]
      exact hc
    · rw [List.getD_eq_getElem?_getD, List.getElem?_eq_none (Nat.le_of_not_lt hr)]
      exact Nat.zero_le c
  unfold getCell
  rw [List.getD_eq_getElem?_getD (l := b.getD r []), List.getElem?_eq_none hlen]
  rfl

theorem plainOrder_mem : ∀ (j : Nat) (l : Letter), l ∈ plainOrder j := by
  intro j l
  show l ∈ LETTERS
  cases l <;> decide

/-! The claim theorems. -/

/-- Claim C1: for every (puzzle, solution) pair returned by `generatePuzzle`
(over any randomized candidate orders `g`, any drawn clue target `t`, and any
position visiting order `ps`), the non-empty cells of the puzzle agree with the
solution, the puzzle has exactly one completion, that completion is the
solution, `countSolutions puzzle = 1`, and the deterministic
(`randomized = false`) solve of the puzzle succeeds and yields exactly the
solution. -/
theorem claim_generatePuzzle_pairing (g : Nat → List Letter) (t : Nat)
    (ps : List (Nat × Nat)) (hgall : ∀ j l, l ∈ g j) :
    (∀ r c, getCell (generatePuzzle g t ps).1 r c ≠ none →
      getCell (generatePuzzle g t ps).1 r c = getCell (generatePuzzle g t ps).2 r c) ∧
      (∃! f, isCompletionF (generatePuzzle g t ps).1 f) ∧
      isCompletionF (generatePuzzle g t ps).1 (asFull (generatePuzzle g t ps).2) ∧
      countSolutions (generatePuzzle g t ps).1 = 1 ∧
      (solve (generatePuzzle g t ps).1 plainOrder).1 = true ∧
      (solve (generatePuzzle g t ps).1 plainOrder).2 = (generatePuzzle g t ps).2 := by
  rcases generatePuzzle_master g t ps hgall with ⟨hswf, hsg, hsfull, hpwf, hcs, hagree⟩
  have hpg : goodBoard (generatePuzzle g t ps).1 :=
    goodBoard_mono (fun r c _ _ => hagree r c) hsg
  have hu := unique_solve hpwf hpg hswf hsg hsfull hagree hcs plainOrder
    plainOrder_mem
  refine ⟨?_, hu.1, hu.2.1, hcs, hu.2.2.1, hu.2.2.2⟩
  intro r c hne
  rcases hagree r c with h | h
  · exact h
  · exact absurd h hne

/-- Claim C1 witness: instantiation at the unshuffled order, target 7 and the
row-major position order. -/
theorem claim_generatePuzzle_pairing_witness :
    (∀ j l, l ∈ plainOrder j) ∧
      ((∀ r c, getCell (generatePuzzle plainOrder 7 allPositions).1 r c ≠ none →
        getCell (generatePuzzle plainOrder 7 allPositions).1 r c =
          getCell (generatePuzzle plainOrder 7 allPositions).2 r c) ∧
      (∃! f, isCompletionF (generatePuzzle plainOrder 7 allPositions).1 f) ∧
      isCompletionF (generatePuzzle plainOrder 7 allPositions).1
        (asFull (generatePuzzle plainOrder 7 allPositions).2) ∧
      countSolutions (generatePuzzle plainOrder 7 allPositions).1 = 1 ∧
      (solve (generatePuzzle plainOrder 7 allPositions).1 plainOrder).1 = true ∧
      (solve (generatePuzzle plainOrder 7 allPositions).1 plainOrder).2 =
        (generatePuzzle plainOrder 7 allPositions).2) :=
  ⟨plainOrder_mem,
    claim_generatePuzzle_pairing plainOrder 7 allPositions
      plainOrder_mem⟩

/-- Claim C2: on a well-formed grid whose filled cells satisfy the
row/column/block constraint, `countSolutions` returns 0 when the grid has no
completion, 1 when it has exactly one, and a value at least 2 when it has two
or more distinct completions. -/
theorem claim_countSolutions_trichotomy {b : Board} (hwf : wellFormed b)
    (hgood : goodBoard b) :
    ((¬ ∃ f, isCompletionF b f) → countSolutions b = 0) ∧
      ((∃! f, isCompletionF b f) → countSolutions b = 1) ∧
      ((∃ f1 f2, f1 ≠ f2 ∧ isCompletionF b f1 ∧ isCompletionF b f2) →
        2 ≤ countSolutions b) := by
  have hmin := countSolutions_min hwf hgood
  refine ⟨?_, ?_, ?_⟩
  · intro hno
    have hz : numCompletions b = 0 := by
      rw [numCompletions_eq_zero_iff]
      intro f hf
      exact hno ⟨f, hf⟩
    rw [hmin, hz]
    decide
  · intro hone
    have h1 : numCompletions b = 1 := numCompletions_eq_one_iff.mpr hone
    rw [hmin, h1]
    decide
  · intro htwo
    have h2 : 2 ≤ numCompletions b := two_le_numCompletions_iff.mpr htwo
    rw [hmin]
    omega

/-- Claim C2 witness: the full example grid is well formed and constrained, so
the trichotomy applies to it. -/
theorem claim_countSolutions_trichotomy_witness :
    wellFormed holaBoard ∧ goodBoard holaBoard ∧
      (((¬ ∃ f, isCompletionF holaBoard f) → countSolutions holaBoard = 0) ∧
        ((∃! f, isCompletionF holaBoard f) → countSolutions holaBoard = 1) ∧
        ((∃ f1 f2, f1 ≠ f2 ∧ isCompletionF holaBoard f1 ∧ isCompletionF holaBoard f2) →
          2 ≤ countSolutions holaBoard)) :=
  ⟨by decide, by decide, claim_countSolutions_trichotomy (by decide) (by decide)⟩

/-- Claim C3: for any grid, any in-range position and any alphabet letter,
`isValid` returns false exactly when the letter occurs at some cell other than
`(row, col)` in the same row, column, or 2x2 block; the cell `(row, col)`
itself is excluded from the comparison. (The embedding of `isValid` is a pure
function of the board, so it has no side effects by construction.) -/
theorem claim_isValid_contract {b : Board} {row col : Nat}
    (hrow : row < SIZE) (hcol : col < SIZE) (l : Letter) :
    isValid b row col (some l) = false ↔
      ∃ r2 c2, r2 < SIZE ∧ c2 < SIZE ∧ (r2, c2) ≠ (row, col) ∧
        sameUnit row col r2 c2 ∧ getCell b r2 c2 = some l := by
  have h := isValid_iff (b := b) hrow hcol (some l)
  constructor
  · intro hfalse
    have hnp : ¬ (∀ r2 c2, r2 < SIZE → c2 < SIZE → (r2, c2) ≠ (row, col) →
        sameUnit row col r2 c2 → getCell b r2 c2 ≠ some l) := by
      intro hp
      rw [h.mpr hp] at hfalse
      cases hfalse
    push_neg at hnp
    rcases hnp with ⟨r2, c2, h2, h4, hne, hunit, heq⟩
    exact ⟨r2, c2, h2, h4, hne, hunit, heq⟩
  · rintro ⟨r2, c2, h2, h4, hne, hunit, heq⟩
    cases hval : isValid b row col (some l)
    · rfl
    · exact absurd heq (h.mp hval r2 c2 h2 h4 hne hunit)

/-- Claim C3 witness: on the example grid, placing H at (0,1) is rejected
because H already sits at (0,0) in the same row. -/
theorem claim_isValid_contract_witness :
    (0 : Nat) < SIZE ∧ (1 : Nat) < SIZE ∧
      (isValid holaBoard 0 1 (some Letter.H) = false ↔
        ∃ r2 c2, r2 < SIZE ∧ c2 < SIZE ∧ (r2, c2) ≠ (0, 1) ∧
          sameUnit 0 1 r2 c2 ∧ getCell holaBoard r2 c2 = some Letter.H) :=
  ⟨by decide, by decide, claim_isValid_contract (by decide) (by decide) Letter.H⟩

/-- Claim C4: on a well-formed constrained grid, `solve` (with any candidate
orders that offer the whole alphabet, covering both the deterministic and the
randomized mode) returns true exactly when the filled cells extend to a full
constrained grid; on success the returned board is such a completion agreeing
with the original on every originally filled cell, and on failure the board is
returned exactly as it was. -/
theorem claim_solve_contract {b : Board} (g : Nat → List Letter)
    (hwf : wellFormed b) (hgood : goodBoard b) (hgall : ∀ j l, l ∈ g j) :
    ((solve b g).1 = true ↔ ∃ f, isCompletionF b f) ∧
      ((solve b g).1 = true → isFull (solve b g).2 ∧ goodBoard (solve b g).2 ∧
        wellFormed (solve b g).2 ∧ extendsOn b (solve b g).2) ∧
      ((solve b g).1 = false → (solve b g).2 = b) := by
  rcases solve_correct g hwf hgood hgall with ⟨hiff, hsound, hframe⟩
  exact ⟨hiff, fun ht => ⟨(hsound ht).2.2.1, (hsound ht).2.1, (hsound ht).1,
    (hsound ht).2.2.2⟩, hframe⟩

/-- Claim C4 witness: instantiation at the empty board with the deterministic
candidate order. -/
theorem claim_solve_contract_witness :
    wellFormed emptyBoard ∧ goodBoard emptyBoard ∧ (∀ j l, l ∈ plainOrder j) ∧
      (((solve emptyBoard plainOrder).1 = true ↔ ∃ f, isCompletionF emptyBoard f) ∧
        ((solve emptyBoard plainOrder).1 = true →
          isFull (solve emptyBoard plainOrder).2 ∧
            goodBoard (solve emptyBoard plainOrder).2 ∧
            wellFormed (solve emptyBoard plainOrder).2 ∧
            extendsOn emptyBoard (solve emptyBoard plainOrder).2) ∧
        ((solve emptyBoard plainOrder).1 = false →
          (solve emptyBoard plainOrder).2 = emptyBoard)) :=
  ⟨by decide, by decide, plainOrder_mem,
    claim_solve_contract plainOrder (by decide) (by decide)
      plainOrder_mem⟩

/-- Claim C5: for any candidate orders offering the whole alphabet (which every
Fisher-Yates shuffle of the alphabet does), the board returned by
`generateFullBoard` is fully filled, every row, column and 2x2 block contains
each of the four letters exactly once, and the underlying solve call from the
empty grid does not fail. -/
theorem claim_generateFullBoard_valid (g : Nat → List Letter)
    (hgall : ∀ j l, l ∈ g j) :
    isFull (generateFullBoard g) ∧ (solve emptyBoard g).1 = true ∧
      (∀ r < SIZE, ∀ l : Letter, (rowCells (generateFullBoard g) r).count (some l) = 1) ∧
      (∀ c < SIZE, ∀ l : Letter, (colCells (generateFullBoard g) c).count (some l) = 1) ∧
      (∀ br < 2, ∀ bc < 2, ∀ l : Letter,
        (blockCells (generateFullBoard g) br bc).count (some l) = 1) := by
  have hs := generateFullBoard_spec g hgall
  exact ⟨hs.2.2.2, hs.1,
    fun r hr l => rowCells_count hs.2.2.1 hs.2.2.2 hr l,
    fun c hc l => colCells_count hs.2.2.1 hs.2.2.2 hc l,
    fun br hbr bc hbc l => blockCells_count hs.2.2.1 hs.2.2.2 hbr hbc l⟩

/-- Claim C5 witness: instantiation at the unshuffled candidate order. -/
theorem claim_generateFullBoard_valid_witness :
    (∀ j l, l ∈ plainOrder j) ∧
      (isFull (generateFullBoard plainOrder) ∧
        (solve emptyBoard plainOrder).1 = true ∧
        (∀ r < SIZE, ∀ l : Letter,
          (rowCells (generateFullBoard plainOrder) r).count (some l) = 1) ∧
        (∀ c < SIZE, ∀ l : Letter,
          (colCells (generateFullBoard plainOrder) c).count (some l) = 1) ∧
        (∀ br < 2, ∀ bc < 2, ∀ l : Letter,
          (blockCells (generateFullBoard plainOrder) br bc).count (some l) = 1)) :=
  ⟨plainOrder_mem,
    claim_generateFullBoard_valid plainOrder plainOrder_mem⟩

/-- Claim C6: the solution-counting search never mutates the caller's grid:
it runs on the deep copy, the search returns that copy exactly as it received
it (every placement is undone), and the deep copy is structurally equal to the
original, so after any `countSolutions` call every cell of the caller's grid
holds the value it held before. -/
theorem claim_countSolutions_no_mutation (b : Board) (fuel cnt : Nat) :
    (countAux fuel (deepCopy b) cnt).2 = deepCopy b ∧ deepCopy b = b :=
  ⟨countAux_restore fuel (deepCopy b) cnt, deepCopy_eq b⟩

/-- Claim C7: with the default clue range (drawn target `t` between 6 and 8)
and a shuffled visiting order of the sixteen positions, the generated puzzle
always keeps at least 6 clues; its clue count is exactly `t` plus the number of
removals that uniqueness blocked, so it is at most 8 whenever the digging loop
completed, and in the best-effort shortfall case the puzzle still has exactly
one solution. -/
theorem claim_clue_range (g : Nat → List Letter) (t : Nat) (ps : List (Nat × Nat))
    (hgall : ∀ j l, l ∈ g j) (ht1 : 6 ≤ t) (ht2 : t ≤ 8)
    (hps : ps.Perm allPositions) :
    6 ≤ clueCount (generatePuzzle g t ps).1 ∧
      clueCount (generatePuzzle g t ps).1 =
        t + (digLoop ps (generateFullBoard g) (SIZE * SIZE - t)).2 ∧
      ((digLoop ps (generateFullBoard g) (SIZE * SIZE - t)).2 = 0 →
        clueCount (generatePuzzle g t ps).1 ≤ 8) ∧
      countSolutions (generatePuzzle g t ps).1 = 1 := by
  have hsol := generateFullBoard_spec g hgall
  have hfull16 : clueCount (generateFullBoard g) = SIZE * SIZE :=
    clueCount_of_isFull hsol.2.2.2
  have hnd : ps.Nodup := hps.nodup_iff.mpr nodup_allPositions
  have hpos : ∀ p ∈ ps, p.1 < SIZE ∧ p.2 < SIZE ∧
      getCell (generateFullBoard g) p.1 p.2 ≠ none := by
    intro p hp
    have hmem : p ∈ allPositions := hps.mem_iff.mp hp
    rcases mem_allPositions.mp hmem with ⟨h1, h2⟩
    exact ⟨h1, h2, hsol.2.2.2 p.1 h1 p.2 h2⟩
  rcases digLoop_count ps (generateFullBoard g) (SIZE * SIZE - t) hsol.2.1 hnd hpos
    with ⟨hrem, hcount⟩
  rcases generatePuzzle_master g t ps hgall with ⟨_, _, _, _, hcs, _⟩
  have hfst := generatePuzzle_fst g t ps
  rw [hfst] at hcs ⊢
  have h16 : SIZE * SIZE = 16 := rfl
  rw [h16] at hrem hcount hfull16 hcs ⊢
  refine ⟨by omega, by omega, fun hz => by omega, hcs⟩

/-- Claim C7 witness: instantiation at the unshuffled candidate order, target 7
and the row-major position order. -/
theorem claim_clue_range_witness :
    (∀ j l, l ∈ plainOrder j) ∧ 6 ≤ 7 ∧ 7 ≤ 8 ∧ allPositions.Perm allPositions ∧
      (6 ≤ clueCount (generatePuzzle plainOrder 7 allPositions).1 ∧
        clueCount (generatePuzzle plainOrder 7 allPositions).1 =
          7 + (digLoop allPositions (generateFullBoard plainOrder) (SIZE * SIZE - 7)).2 ∧
        ((digLoop allPositions (generateFullBoard plainOrder) (SIZE * SIZE - 7)).2 = 0 →
          clueCount (generatePuzzle plainOrder 7 allPositions).1 ≤ 8) ∧
        countSolutions (generatePuzzle plainOrder 7 allPositions).1 = 1) :=
  ⟨plainOrder_mem, by omega, by omega, List.Perm.refl _,
    claim_clue_range plainOrder 7 allPositions plainOrder_mem
      (by omega) (by omega) (List.Perm.refl _)⟩

/-- Claim C8: the deterministic solve of the all-empty grid succeeds and fills
the grid with one specific full constrained board (the spec's example grid);
since the embedding of `solve` with `randomized = false` is a function of the
board alone, any two such calls return this same grid. -/
theorem claim_solve_empty_deterministic :
    solve emptyBoard plainOrder = (true, holaBoard) ∧
      wellFormed holaBoard ∧ goodBoard holaBoard ∧ isFull holaBoard := by
  refine ⟨?_, by decide, by decide, by decide⟩
  decide

/-- Claim C9 counterexample: calling `isValid` with the out-of-range column 7
does not fail fast with any invariant-violation signal; it silently returns
the normal result `true` (on the empty board), contradicting the claim that
precondition violations are signalled. -/
theorem claim_isValid_no_failfast_counterexample :
    isValid emptyBoard 0 7 (some Letter.H) = true := by decide

/-- Claim C9 amended: the implementation performs no precondition checks.
On a well-formed board, `isValid` with an out-of-range column silently returns
the ordinary result of its scans, namely true exactly when the letter does not
occur in the given row (the column and block scans only hit out-of-range cells
and never reject). -/
theorem claim_isValid_oob_col_silent {b : Board} (hwf : wellFormed b)
    {row col : Nat} (hrow : row < SIZE) (hcol : SIZE ≤ col) (l : Letter) :
    isValid b row col (some l) = true ↔
      ∀ c2 < SIZE, getCell b row c2 ≠ some l := by
  have hSZ : SIZE = 4 := rfl
  have hBS : BLOCK_SIZE = 2 := rfl
  simp only [isValid, Bool.and_eq_true, List.all_eq_true, List.mem_range,
    Bool.not_eq_true', Bool.and_eq_false_iff, decide_eq_false_iff_not, not_not]
  constructor
  · rintro ⟨⟨hrowScan, _⟩, _⟩ c2 hc2 heq
    rcases hrowScan c2 hc2 with h5 | h5
    · exact h5 heq
    · rw [h5] at hc2
      omega
  · intro h
    refine ⟨⟨?_, ?_⟩, ?_⟩
    · intro c2 hc2
      exact Or.inl (h c2 hc2)
    · intro r2 _
      left
      rw [getCell_col_oob hwf hcol]
      intro hx
      cases hx
    · intro r2 hr2 c2 hc2
      left
      have hcol4 : 4 ≤ col := by
        rw [← hSZ]
        exact hcol
      have hoob : SIZE ≤ col / BLOCK_SIZE * BLOCK_SIZE + c2 := by
        rw [hSZ, hBS]
        omega
      rw [getCell_col_oob hwf hoob]
      intro hx
      cases hx

/-- Claim C9 amended witness: the empty board with column 7. -/
theorem claim_isValid_oob_col_silent_witness :
    wellFormed emptyBoard ∧ (0 : Nat) < SIZE ∧ SIZE ≤ 7 ∧
      (isValid emptyBoard 0 7 (some Letter.H) = true ↔
        ∀ c2 < SIZE, getCell emptyBoard 0 c2 ≠ some Letter.H) :=
  ⟨by decide, by decide, by decide,
    claim_isValid_oob_col_silent (by decide) (by decide) (by decide) Letter.H⟩

/-- Claim C10: for every input grid, the value returned by `countSolutions`
lies in the set 0, 1, 2 - the early-exit pruning caps the counter at 2 even
when the grid has more completions. -/
theorem claim_countSolutions_capped (b : Board) :
    countSolutions b = 0 ∨ countSolutions b = 1 ∨ countSolutions b = 2 := by
  have h : countSolutions b ≤ 2 := countAux_le (numEmpty b + 1) (deepCopy b) 0 (by omega)
  omega

end Hola
